import Mathlib

/-!
Verification of the skillset CLI (src/skillset/cli.py, src/skillset/builtins.py).

We shallowly embed the core functions of the program:
* `deep_merge` — recursive dictionary merge with set-union list collision rule,
* `find_skills` — skill discovery by SKILL.md manifest with hidden-segment filter,
* `link_skills` — idempotent re-linking of skill directories into a target dir,
* `remove_link` / `is_link` — the link-manager primitives (POSIX branch),
* `get_preset` / `save_user_preset` — preset resolution,
* `parse_repo_spec` — owner/repo specifier parsing,
* `find_repo_permissions` / `merge_permissions` — permission file merging.

Python dicts are modelled as association lists with distinct keys kept in
insertion order; JSON values as the inductive type `Doc`; filesystem directory
contents as functions from entry name to an optional entry.
-/

namespace Skillset

/-- A JSON-like configuration document (the Configuration Document shape):
mapping, sequence, string, number, boolean or null. Mappings are insertion
ordered association lists, as Python dicts are. -/
inductive Doc where
  | obj : List (String × Doc) → Doc
  | arr : List Doc → Doc
  | str : String → Doc
  | num : Int → Doc
  | bool : Bool → Doc
  | null : Doc

/- Structural boolean equality on documents (Python == on parsed JSON). -/
mutual

def Doc.beq : Doc → Doc → Bool
  | .obj a, .obj b => Doc.beqFields a b
  | .arr a, .arr b => Doc.beqList a b
  | .str a, .str b => a = b
  | .num a, .num b => a = b
  | .bool a, .bool b => a = b
  | .null, .null => true
  | _, _ => false

def Doc.beqList : List Doc → List Doc → Bool
  | [], [] => true
  | x :: xs, y :: ys => Doc.beq x y && Doc.beqList xs ys
  | _, _ => false

def Doc.beqFields : List (String × Doc) → List (String × Doc) → Bool
  | [], [] => true
  | (k1, v1) :: xs, (k2, v2) :: ys => k1 = k2 && Doc.beq v1 v2 && Doc.beqFields xs ys
  | _, _ => false

end

mutual

theorem Doc.beq_iff : ∀ a b : Doc, Doc.beq a b = true ↔ a = b
  | .obj a, .obj b => by
      simp only [Doc.beq, Doc.beqFields_iff a b, Doc.obj.injEq]
  | .arr a, .arr b => by
      simp only [Doc.beq, Doc.beqList_iff a b, Doc.arr.injEq]
  | .str a, .str b => by simp [Doc.beq]
  | .num a, .num b => by simp [Doc.beq]
  | .bool a, .bool b => by simp [Doc.beq]
  | .null, .null => by simp [Doc.beq]
  | .obj a, .arr b => by simp [Doc.beq]
  | .obj a, .str b => by simp [Doc.beq]
  | .obj a, .num b => by simp [Doc.beq]
  | .obj a, .bool b => by simp [Doc.beq]
  | .obj a, .null => by simp [Doc.beq]
  | .arr a, .obj b => by simp [Doc.beq]
  | .arr a, .str b => by simp [Doc.beq]
  | .arr a, .num b => by simp [Doc.beq]
  | .arr a, .bool b => by simp [Doc.beq]
  | .arr a, .null => by simp [Doc.beq]
  | .str a, .obj b => by simp [Doc.beq]
  | .str a, .arr b => by simp [Doc.beq]
  | .str a, .num b => by simp [Doc.beq]
  | .str a, .bool b => by simp [Doc.beq]
  | .str a, .null => by simp [Doc.beq]
  | .num a, .obj b => by simp [Doc.beq]
  | .num a, .arr b => by simp [Doc.beq]
  | .num a, .str b => by simp [Doc.beq]
  | .num a, .bool b => by simp [Doc.beq]
  | .num a, .null => by simp [Doc.beq]
  | .bool a, .obj b => by simp [Doc.beq]
  | .bool a, .arr b => by simp [Doc.beq]
  | .bool a, .str b => by simp [Doc.beq]
  | .bool a, .num b => by simp [Doc.beq]
  | .bool a, .null => by simp [Doc.beq]
  | .null, .obj b => by simp [Doc.beq]
  | .null, .arr b => by simp [Doc.beq]
  | .null, .str b => by simp [Doc.beq]
  | .null, .num b => by simp [Doc.beq]
  | .null, .bool b => by simp [Doc.beq]

theorem Doc.beqList_iff : ∀ xs ys : List Doc, Doc.beqList xs ys = true ↔ xs = ys
  | [], [] => by simp [Doc.beqList]
  | x :: xs, y :: ys => by
      simp only [Doc.beqList, Bool.and_eq_true, Doc.beq_iff x y, Doc.beqList_iff xs ys,
        List.cons.injEq]
  | [], _ :: _ => by simp [Doc.beqList]
  | _ :: _, [] => by simp [Doc.beqList]

theorem Doc.beqFields_iff :
    ∀ xs ys : List (String × Doc), Doc.beqFields xs ys = true ↔ xs = ys
  | [], [] => by simp [Doc.beqFields]
  | (k1, v1) :: xs, (k2, v2) :: ys => by
      simp only [Doc.beqFields, Bool.and_eq_true, decide_eq_true_eq, Doc.beq_iff v1 v2,
        Doc.beqFields_iff xs ys, List.cons.injEq, Prod.mk.injEq]
  | [], _ :: _ => by simp [Doc.beqFields]
  | (_, _) :: _, [] => by simp [Doc.beqFields]

end

instance : DecidableEq Doc := fun a b => decidable_of_iff _ (Doc.beq_iff a b)

/-- A Python dict of JSON values: an association list with distinct keys,
kept in insertion order. -/
abbrev PyDict := List (String × Doc)

/-- Python dict lookup `d.get(k)`: the binding of the first matching key. -/
def PyDict.get? : PyDict → String → Option Doc
  | [], _ => none
  | (k1, v) :: rest, k => if k1 = k then some v else PyDict.get? rest k

/-- The keys of a dict, in order: `list(d.keys())`. -/
def PyDict.keys (m : PyDict) : List String := m.map Prod.fst

/-- Python assignment `d[k] = v` on a distinct-key association list: replace
the binding in place if the key is present, otherwise append it at the end. -/
def PyDict.set : PyDict → String → Doc → PyDict
  | [], k, v => [(k, v)]
  | (k1, v1) :: rest, k, v =>
      if k1 = k then (k, v) :: rest else (k1, v1) :: PyDict.set rest k v

/- deep_merge from cli.py: deep merge of two dictionaries with override
precedence. The loop (for key, value in override.items()) is the recursion on
override; mergeStep is the body's collision rule: nested dicts merge
recursively, two lists merge by list(set(result[key] + value)) — a set union,
modelled as the order-preserving dedup of the concatenation — and in every
other case (key absent, scalar, or type mismatch) the override value is
stored. -/
mutual

def deep_merge : PyDict → PyDict → PyDict
  | base, [] => base
  | base, (k, v) :: rest =>
      deep_merge (PyDict.set base k (mergeStep (PyDict.get? base k) v)) rest
termination_by _ ov => sizeOf ov

def mergeStep : Option Doc → Doc → Doc
  | some (Doc.obj b), Doc.obj o => Doc.obj (deep_merge b o)
  | some (Doc.arr xs), Doc.arr ys => Doc.arr ((xs ++ ys).dedup)
  | _, v => v
termination_by _ v => sizeOf v

end

theorem PyDict.get_append (m1 m2 : PyDict) (k : String) :
    PyDict.get? (m1 ++ m2) k =
      match PyDict.get? m1 k with
      | some v => some v
      | none => PyDict.get? m2 k := by
  induction m1 with
  | nil => simp [PyDict.get?]
  | cons p rest ih =>
    obtain ⟨k1, v⟩ := p
    by_cases h : k1 = k <;> simp [PyDict.get?, h, ih]

theorem PyDict.get_eq_none_iff (m : PyDict) (k : String) :
    PyDict.get? m k = none ↔ k ∉ PyDict.keys m := by
  induction m with
  | nil => simp [PyDict.get?, PyDict.keys]
  | cons p rest ih =>
    obtain ⟨k1, v⟩ := p
    by_cases h : k1 = k <;> simp [PyDict.get?, PyDict.keys, h, ih] <;> tauto

theorem PyDict.get_set_self (m : PyDict) (k : String) (v : Doc) :
    PyDict.get? (PyDict.set m k v) k = some v := by
  induction m with
  | nil => simp [PyDict.set, PyDict.get?]
  | cons p rest ih =>
    obtain ⟨k1, v1⟩ := p
    by_cases h : k1 = k <;> simp [PyDict.set, PyDict.get?, h, ih]

theorem PyDict.get_set_ne (m : PyDict) (k k2 : String) (v : Doc) (h : k ≠ k2) :
    PyDict.get? (PyDict.set m k v) k2 = PyDict.get? m k2 := by
  induction m with
  | nil => simp [PyDict.set, PyDict.get?, h]
  | cons p rest ih =>
    obtain ⟨k1, v1⟩ := p
    by_cases h1 : k1 = k
    · subst h1
      simp [PyDict.set, PyDict.get?, h]
    · by_cases h2 : k1 = k2
      · subst h2
        simp [PyDict.set, PyDict.get?, h1, ih]
      · simp [PyDict.set, PyDict.get?, h1, h2, ih]

theorem PyDict.set_of_get_none (m : PyDict) (k : String) (v : Doc)
    (h : PyDict.get? m k = none) : PyDict.set m k v = m ++ [(k, v)] := by
  induction m with
  | nil => simp [PyDict.set]
  | cons p rest ih =>
    obtain ⟨k1, v1⟩ := p
    by_cases h1 : k1 = k
    · simp [PyDict.get?, h1] at h
    · simp only [PyDict.get?, h1, if_false] at h
      simp [PyDict.set, h1, ih h]

/-- Key-by-key characterisation of deep_merge: a key absent from override
keeps its base binding, and a key present in override gets the collision rule
`mergeStep` applied to its optional base binding and its override value. -/
theorem deep_merge_get (base override : PyDict)
    (ho : (PyDict.keys override).Nodup) (k : String) :
    PyDict.get? (deep_merge base override) k =
      match PyDict.get? override k with
      | some ov => some (mergeStep (PyDict.get? base k) ov)
      | none => PyDict.get? base k := by
  induction override generalizing base with
  | nil => simp [deep_merge, PyDict.get?]
  | cons p rest ih =>
    obtain ⟨k1, v⟩ := p
    simp only [PyDict.keys, List.map_cons, List.nodup_cons] at ho
    obtain ⟨hk1, hrest⟩ := ho
    rw [deep_merge, ih _ hrest]
    by_cases hk : k1 = k
    · subst hk
      have hrnone : PyDict.get? rest k1 = none := by
        rw [PyDict.get_eq_none_iff]
        exact fun hmem => hk1 (by simpa [PyDict.keys] using hmem)
      rw [hrnone, PyDict.get_set_self]
      simp [PyDict.get?]
    · rw [PyDict.get_set_ne _ _ _ _ hk]
      simp [PyDict.get?, hk]

theorem mergeStep_none (v : Doc) : mergeStep none v = v := by
  cases v <;> simp [mergeStep]

theorem mergeStep_arr (xs ys : List Doc) :
    mergeStep (some (Doc.arr xs)) (Doc.arr ys) = Doc.arr ((xs ++ ys).dedup) := by
  simp [mergeStep]

/-- When no key of override occurs in base, deep_merge is concatenation. -/
theorem deep_merge_disjoint (override base : PyDict)
    (ho : (PyDict.keys override).Nodup)
    (hd : ∀ k ∈ PyDict.keys override, PyDict.get? base k = none) :
    deep_merge base override = base ++ override := by
  induction override generalizing base with
  | nil => simp [deep_merge]
  | cons p rest ih =>
    obtain ⟨k, v⟩ := p
    simp only [PyDict.keys, List.map_cons, List.nodup_cons] at ho
    obtain ⟨hk, hrest⟩ := ho
    have hbk : PyDict.get? base k = none := hd k (by simp [PyDict.keys])
    rw [deep_merge, hbk, mergeStep_none, PyDict.set_of_get_none base k v hbk,
      ih (base ++ [(k, v)]) hrest]
    · simp
    · intro k2 hk2
      rw [PyDict.get_append]
      have h1 : PyDict.get? base k2 = none := by
        apply hd
        simp only [PyDict.keys, List.map_cons, List.mem_cons]
        right
        exact hk2
      have hne : ¬ k = k2 := fun he => hk (he ▸ hk2)
      simp [h1, PyDict.get?, hne]

/-- Python hashability of a JSON value: everything but dicts and lists.
`list(set(...))` in deep_merge raises TypeError on unhashable elements (the
spec calls that case undefined behavior), so the set-union claim is about
sequences of hashable elements. -/
def Doc.hashable : Doc → Bool
  | .obj _ => false
  | .arr _ => false
  | _ => true

/-- C1: For every two Configuration Documents (dicts) base and override and
every key whose value is a sequence (list) in both — with hashable elements,
the domain on which Python's set() is defined — deep_merge(base, override)
maps that key to a sequence whose element set equals the union of the two
operands' element sets, with no duplicate elements (by equality), regardless
of the result's internal ordering. -/
theorem deep_merge_list_union (base override : PyDict) (k : String)
    (xs ys : List Doc)
    (hb : (PyDict.keys base).Nodup) (ho : (PyDict.keys override).Nodup)
    (hxh : ∀ e ∈ xs, e.hashable = true) (hyh : ∀ e ∈ ys, e.hashable = true)
    (hx : PyDict.get? base k = some (Doc.arr xs))
    (hy : PyDict.get? override k = some (Doc.arr ys)) :
    ∃ zs : List Doc, PyDict.get? (deep_merge base override) k = some (Doc.arr zs) ∧
      (∀ e : Doc, e ∈ zs ↔ e ∈ xs ∨ e ∈ ys) ∧ zs.Nodup := by
  have h := deep_merge_get base override ho k
  rw [hy, hx] at h
  refine ⟨(xs ++ ys).dedup, ?_, ?_, List.nodup_dedup _⟩
  · rw [h]
    simp [mergeStep_arr]
  · intro e
    simp [List.mem_dedup]

/-- Witness for C1 at a concrete input: base maps p to the list [a, b],
override maps p to the list [b, c]; the merged list holds exactly a, b, c. -/
theorem deep_merge_list_union_witness :
    ∃ zs : List Doc,
      PyDict.get? (deep_merge [("p", Doc.arr [Doc.str "a", Doc.str "b"])]
        [("p", Doc.arr [Doc.str "b", Doc.str "c"])]) "p" = some (Doc.arr zs) ∧
      (∀ e : Doc, e ∈ zs ↔ e ∈ [Doc.str "a", Doc.str "b"] ∨
        e ∈ [Doc.str "b", Doc.str "c"]) ∧ zs.Nodup :=
  deep_merge_list_union [("p", Doc.arr [Doc.str "a", Doc.str "b"])]
    [("p", Doc.arr [Doc.str "b", Doc.str "c"])] "p"
    [Doc.str "a", Doc.str "b"] [Doc.str "b", Doc.str "c"]
    (by decide) (by decide) (by decide) (by decide) (by rfl) (by rfl)

/-- C5: For every Configuration Document A (a dict — distinct keys),
deep_merge(A, \x7b\x7d) equals A and deep_merge(\x7b\x7d, A) equals A: merging
with an empty document on either side is the identity. -/
theorem deep_merge_empty_identity (A : PyDict) (h : (PyDict.keys A).Nodup) :
    deep_merge A [] = A ∧ deep_merge [] A = A := by
  constructor
  · simp [deep_merge]
  · rw [deep_merge_disjoint A [] h (fun k _ => rfl)]
    simp

/-- Witness for C5 at a concrete one-key document. -/
theorem deep_merge_empty_identity_witness :
    deep_merge [("a", Doc.null)] [] = [("a", Doc.null)] ∧
      deep_merge [] [("a", Doc.null)] = [("a", Doc.null)] :=
  deep_merge_empty_identity [("a", Doc.null)] (by decide)

/-- A filesystem path, as its list of name segments. -/
abbrev FsPath := List String

/-- Python part.startswith(".") for a path segment: its first character is a
dot. -/
def startsWithDot (part : String) : Bool :=
  match part.data with
  | [] => false
  | c :: _ => c = '.'

/-- The loop of find_skills from cli.py. The glob repo_dir.glob("**/SKILL.md")
is modelled as the filter keeping the repository entry paths (relative to the
repository root) whose last segment is SKILL.md; an entry is skipped when any
segment of its relative path starts with a dot, and otherwise its parent
directory (root ++ parent) is appended to the accumulator unless already
present. -/
def find_skills_loop (root : FsPath) : List FsPath → List FsPath → List FsPath
  | skills, [] => skills
  | skills, p :: ps =>
      if p.getLast? = some "SKILL.md" then
        if p.any startsWithDot then
          find_skills_loop root skills ps
        else
          find_skills_loop root
            (if root ++ p.dropLast ∈ skills then skills
             else skills ++ [root ++ p.dropLast]) ps
      else find_skills_loop root skills ps

/-- find_skills from cli.py: the repository is given by its root path and the
list of its entry paths relative to the root, in traversal order. -/
def find_skills (root : FsPath) (files : List FsPath) : List FsPath :=
  find_skills_loop root [] files

theorem find_skills_loop_mem (root : FsPath) (files acc : List FsPath) (d : FsPath) :
    d ∈ find_skills_loop root acc files ↔
      d ∈ acc ∨ ∃ p ∈ files, p.getLast? = some "SKILL.md" ∧
        (∀ part ∈ p, startsWithDot part = false) ∧ d = root ++ p.dropLast := by
  induction files generalizing acc with
  | nil => simp [find_skills_loop]
  | cons p ps ih =>
    by_cases h1 : p.getLast? = some "SKILL.md"
    · by_cases h2 : p.any startsWithDot
      · rw [find_skills_loop, if_pos h1, if_pos h2, ih]
        simp only [List.any_eq_true] at h2
        obtain ⟨bad, hbad, hdot⟩ := h2
        constructor
        · rintro (h | ⟨q, hq, hlast, hdots, hd⟩)
          · exact Or.inl h
          · exact Or.inr ⟨q, List.mem_cons_of_mem _ hq, hlast, hdots, hd⟩
        · rintro (h | ⟨q, hq, hlast, hdots, hd⟩)
          · exact Or.inl h
          · rcases List.mem_cons.mp hq with he | hq2
            · exact absurd (hdots bad (he ▸ hbad)) (by simp [hdot])
            · exact Or.inr ⟨q, hq2, hlast, hdots, hd⟩
      · rw [find_skills_loop, if_pos h1, if_neg h2, ih]
        simp only [List.any_eq_true, not_exists, not_and] at h2
        have hdots : ∀ part ∈ p, startsWithDot part = false := by
          intro part hpart
          exact Bool.eq_false_iff.mpr (h2 part hpart)
        constructor
        · rintro (h | ⟨q, hq, hlast, hds, hd⟩)
          · by_cases hmem : root ++ p.dropLast ∈ acc
            · rw [if_pos hmem] at h
              exact Or.inl h
            · rw [if_neg hmem] at h
              rcases List.mem_append.mp h with h | h
              · exact Or.inl h
              · simp only [List.mem_singleton] at h
                exact Or.inr ⟨p, List.mem_cons_self _ _, h1, hdots, h⟩
          · exact Or.inr ⟨q, List.mem_cons_of_mem _ hq, hlast, hds, hd⟩
        · rintro (h | ⟨q, hq, hlast, hds, hd⟩)
          · left
            split
            · exact h
            · exact List.mem_append_left _ h
          · rcases List.mem_cons.mp hq with he | hq2
            · subst he
              left
              split
              · exact hd ▸ (by assumption)
              · exact hd ▸ List.mem_append_right _ (List.mem_singleton.mpr rfl)
            · exact Or.inr ⟨q, hq2, hlast, hds, hd⟩
    · rw [find_skills_loop, if_neg h1, ih]
      constructor
      · rintro (h | ⟨q, hq, hlast, hds, hd⟩)
        · exact Or.inl h
        · exact Or.inr ⟨q, List.mem_cons_of_mem _ hq, hlast, hds, hd⟩
      · rintro (h | ⟨q, hq, hlast, hds, hd⟩)
        · exact Or.inl h
        · rcases List.mem_cons.mp hq with he | hq2
          · exact absurd (he ▸ hlast) h1
          · exact Or.inr ⟨q, hq2, hlast, hds, hd⟩

theorem find_skills_loop_nodup (root : FsPath) (files acc : List FsPath)
    (h : acc.Nodup) : (find_skills_loop root acc files).Nodup := by
  induction files generalizing acc with
  | nil => simpa [find_skills_loop] using h
  | cons p ps ih =>
    rw [find_skills_loop]
    split
    · split
      · exact ih acc h
      · apply ih
        split
        · exact h
        · exact List.Nodup.append h (List.nodup_singleton _)
            (by simpa using (by assumption : ¬ root ++ p.dropLast ∈ acc))
    · exact ih acc h

/-- C4: For every repository root, find_skills returns exactly the directories
that directly contain the manifest file SKILL.md, excluding every directory
whose path relative to the repository root has a hidden (dot-prefixed)
segment, with duplicates suppressed; in particular, for a repository with
three candidate skill directories of which one lies inside a hidden directory
segment, find_skills returns exactly the two non-hidden ones. -/
theorem find_skills_correct (root : FsPath) (files : List FsPath) :
    (∀ d, d ∈ find_skills root files ↔
       ∃ rel, d = root ++ rel ∧ rel ++ ["SKILL.md"] ∈ files ∧
         ∀ seg ∈ rel, startsWithDot seg = false) ∧
    (find_skills root files).Nodup ∧
    find_skills ["repo"]
        [["alpha", "SKILL.md"], ["beta", "SKILL.md"], [".hidden", "gamma", "SKILL.md"]]
      = [["repo", "alpha"], ["repo", "beta"]] := by
  refine ⟨?_, find_skills_loop_nodup _ _ _ List.nodup_nil, ?_⟩
  · intro d
    rw [find_skills, find_skills_loop_mem]
    simp only [List.not_mem_nil, false_or]
    constructor
    · rintro ⟨p, hp, hlast, hds, hd⟩
      obtain ⟨ys, rfl⟩ := List.getLast?_eq_some_iff.mp hlast
      refine ⟨ys, ?_, hp, ?_⟩
      · rwa [List.dropLast_concat] at hd
      · intro seg hseg
        exact hds seg (List.mem_append_left _ hseg)
    · rintro ⟨rel, hd, hmem, hds⟩
      refine ⟨rel ++ ["SKILL.md"], hmem, List.getLast?_concat _, ?_, ?_⟩
      · intro part hpart
        rcases List.mem_append.mp hpart with h | h
        · exact hds part h
        · simp only [List.mem_singleton] at h
          subst h
          decide
      · rw [List.dropLast_concat]
        exact hd
  · decide

/-- An entry of the target skills directory: either a directory link
(symlink on POSIX, junction on Windows) resolving to a source path, or a
plain non-link entry with opaque content. -/
inductive FSEntry where
  | link : FsPath → FSEntry
  | other : Nat → FSEntry
deriving DecidableEq

/-- The contents of the target directory: what entry, if any, each name
holds. Creating the directory itself (mkdir) is a no-op in this model. -/
abbrev TargetState := String → Option FSEntry

/-- The test separating the skip branch of link_skills from the other two:
the name exists but is not a link (is_link false, exists true). -/
def entryIsPlain : Option FSEntry → Bool
  | some (FSEntry.other _) => true
  | _ => false

/-- skill_dir.name: the last segment of a skill directory's path. -/
def skillName (d : FsPath) : String := d.getLastD ""

/-- The loop of link_skills from cli.py over the discovered skill
directories: an existing link is removed and recreated (net effect: the name
maps to a fresh link to the skill directory), a name occupied by a non-link
entry is skipped with a report, and an absent name gets a fresh link; the
names linked are collected in order. -/
def link_skills_loop : List FsPath → TargetState → TargetState × List String
  | [], s => (s, [])
  | d :: ds, s =>
    if entryIsPlain (s (skillName d)) then
      link_skills_loop ds s
    else
      let r := link_skills_loop ds
        (fun n => if n = skillName d then some (FSEntry.link d) else s n)
      (r.1, skillName d :: r.2)

/-- link_skills from cli.py: link every directory discovered by find_skills
into the target directory, returning the new contents and the linked names. -/
def link_skills (root : FsPath) (files : List FsPath) (s : TargetState) :
    TargetState × List String :=
  link_skills_loop (find_skills root files) s

/-- The last directory in the list bearing the given name (the one whose link
survives when several skills share a name). -/
def lastNamed (ds : List FsPath) (n : String) : Option FsPath :=
  (ds.filter (fun d => skillName d = n)).getLast?

theorem getLast?_cons {α : Type} (a : α) (l : List α) :
    (a :: l).getLast? =
      match l.getLast? with
      | some b => some b
      | none => some a := by
  cases l with
  | nil => rfl
  | cons x xs =>
    rw [List.getLast?_cons_cons]
    cases h : (x :: xs).getLast? with
    | none => simp at h
    | some b => rfl

theorem entryIsPlain_link (d : FsPath) : entryIsPlain (some (FSEntry.link d)) = false := rfl

theorem link_skills_loop_plain (ds : List FsPath) (s : TargetState) (n : String) :
    entryIsPlain ((link_skills_loop ds s).1 n) = entryIsPlain (s n) := by
  induction ds generalizing s with
  | nil => simp [link_skills_loop]
  | cons d ds ih =>
    rw [link_skills_loop]
    by_cases h : entryIsPlain (s (skillName d)) = true
    · rw [if_pos h]
      exact ih s
    · rw [if_neg h]
      rw [ih]
      by_cases hn : n = skillName d
      · subst hn
        simp only [if_pos rfl, entryIsPlain]
        simp only [Bool.not_eq_true] at h
        exact h.symm
      · rw [if_neg hn]

theorem link_skills_loop_list (ds : List FsPath) (s : TargetState) :
    (link_skills_loop ds s).2 =
      ds.filterMap (fun d =>
        if entryIsPlain (s (skillName d)) then none else some (skillName d)) := by
  induction ds generalizing s with
  | nil => simp [link_skills_loop]
  | cons d ds ih =>
    rw [link_skills_loop, List.filterMap_cons]
    by_cases h : entryIsPlain (s (skillName d)) = true
    · rw [if_pos h, if_pos h, ih]
    · rw [if_neg h, if_neg h]
      have hf : entryIsPlain (s (skillName d)) = false := Bool.eq_false_iff.mpr h
      simp only []
      rw [ih]
      congr 1
      apply List.filterMap_congr
      intro d2 _
      by_cases hn : skillName d2 = skillName d
      · simp [hn, entryIsPlain_link, hf]
      · simp [hn]

theorem link_skills_loop_state (ds : List FsPath) (s : TargetState) (n : String) :
    (link_skills_loop ds s).1 n =
      if entryIsPlain (s n) then s n
      else
        match lastNamed ds n with
        | some d => some (FSEntry.link d)
        | none => s n := by
  induction ds generalizing s with
  | nil =>
    rw [link_skills_loop]
    by_cases h : entryIsPlain (s n) = true
    · rw [if_pos h]
    · rw [if_neg h]
      rfl
  | cons d ds ih =>
    have hlast : lastNamed (d :: ds) n =
        if skillName d = n then
          match lastNamed ds n with
          | some d2 => some d2
          | none => some d
        else lastNamed ds n := by
      unfold lastNamed
      by_cases hd : skillName d = n
      · rw [if_pos hd, List.filter_cons_of_pos (by simp [hd]), getLast?_cons]
        split <;> rename_i heq <;> rw [heq]
      · rw [if_neg hd, List.filter_cons_of_neg (by simp [hd])]
    rw [link_skills_loop]
    by_cases h : entryIsPlain (s (skillName d)) = true
    · rw [if_pos h, ih, hlast]
      by_cases hd : skillName d = n
      · subst hd
        rw [if_pos rfl, if_pos h, if_pos h]
      · rw [if_neg hd]
    · rw [if_neg h]
      have hf : entryIsPlain (s (skillName d)) = false := Bool.eq_false_iff.mpr h
      simp only []
      rw [ih, hlast]
      by_cases hd : skillName d = n
      · subst hd
        cases hl : lastNamed ds (skillName d) with
        | some d2 => simp [hl, hf, entryIsPlain_link]
        | none => simp [hl, hf, entryIsPlain_link]
      · have hne : ¬ n = skillName d := fun he => hd he.symm
        rw [if_neg hd]
        simp [hne]

theorem link_skills_loop_idem (ds : List FsPath) (s : TargetState) :
    link_skills_loop ds (link_skills_loop ds s).1 = link_skills_loop ds s := by
  refine Prod.ext ?_ ?_
  · funext n
    rw [link_skills_loop_state ds (link_skills_loop ds s).1 n, link_skills_loop_plain,
      link_skills_loop_state ds s n]
    by_cases hp : entryIsPlain (s n) = true
    · simp [hp]
    · cases hl : lastNamed ds n with
      | some d2 => simp [hp, hl]
      | none => simp [hp, hl]
  · rw [link_skills_loop_list, link_skills_loop_list]
    apply List.filterMap_congr
    intro d _
    rw [link_skills_loop_plain]

/-- C2: Re-invoking link_skills twice in succession with an unchanged skill
set and unchanged repository is idempotent: the second call's target
directory end state (the entries and what each link resolves to) equals the
first call's end state, and the second call returns exactly the same list of
linked names as the first call. -/
theorem link_skills_idempotent (root : FsPath) (files : List FsPath)
    (s : TargetState) :
    link_skills root files (link_skills root files s).1 = link_skills root files s :=
  link_skills_loop_idem (find_skills root files) s

/-- C3: For every target directory that contains a pre-existing non-link
entry whose name equals a discovered skill's name, link_skills leaves that
pre-existing entry completely untouched and does not include that name in
its returned linked-names list. -/
theorem link_skills_skips_plain (root : FsPath) (files : List FsPath)
    (s : TargetState) (n : String) (c : Nat)
    (hskill : ∃ d ∈ find_skills root files, skillName d = n)
    (hplain : s n = some (FSEntry.other c)) :
    (link_skills root files s).1 n = some (FSEntry.other c) ∧
      n ∉ (link_skills root files s).2 := by
  have hp : entryIsPlain (s n) = true := by rw [hplain]; rfl
  constructor
  · rw [link_skills, link_skills_loop_state, if_pos hp, hplain]
  · rw [link_skills, link_skills_loop_list]
    intro hmem
    obtain ⟨d, hd, hout⟩ := List.mem_filterMap.mp hmem
    by_cases hq : entryIsPlain (s (skillName d)) = true
    · rw [if_pos hq] at hout
      exact Option.noConfusion hout
    · rw [if_neg hq] at hout
      have hn : skillName d = n := Option.some.inj hout
      rw [hn] at hq
      exact hq hp

/-- A target directory holding one plain (non-link) entry named foo. -/
def fooPlainState : TargetState :=
  fun n => if n = "foo" then some (FSEntry.other 0) else none

/-- Witness for C3: a repository with a skill named foo and a target
directory where foo is already a plain entry. -/
theorem link_skills_skips_plain_witness :
    (link_skills ["r"] [["foo", "SKILL.md"]] fooPlainState).1 "foo"
        = some (FSEntry.other 0) ∧
      "foo" ∉ (link_skills ["r"] [["foo", "SKILL.md"]] fooPlainState).2 :=
  link_skills_skips_plain ["r"] [["foo", "SKILL.md"]] fooPlainState "foo" 0
    (by decide) (by rfl)

/-- C9: If the repository root itself directly contains the manifest file
SKILL.md, find_skills includes the repository root itself in its result as a
skill directory, so link_skills (here: on a fresh, empty target directory)
links the entire repository under the root directory's name. -/
theorem find_skills_repo_root (root : FsPath) (files : List FsPath)
    (h : ["SKILL.md"] ∈ files) :
    root ∈ find_skills root files ∧
      skillName root ∈ (link_skills root files (fun _ => none)).2 := by
  have hmem : root ∈ find_skills root files := by
    rw [find_skills, find_skills_loop_mem]
    right
    refine ⟨["SKILL.md"], h, rfl, ?_, by simp⟩
    intro part hp
    simp only [List.mem_singleton] at hp
    subst hp
    decide
  refine ⟨hmem, ?_⟩
  rw [link_skills, link_skills_loop_list]
  exact List.mem_filterMap.mpr ⟨root, hmem, rfl⟩

/-- Witness for C9: a repository whose root holds SKILL.md directly. -/
theorem find_skills_repo_root_witness :
    ["repo"] ∈ find_skills ["repo"] [["SKILL.md"]] ∧
      skillName ["repo"] ∈ (link_skills ["repo"] [["SKILL.md"]] (fun _ => none)).2 :=
  find_skills_repo_root ["repo"] [["SKILL.md"]] (by decide)

/-- The kind of filesystem entry at a path, in the POSIX view: a regular
file, a directory, or a symbolic link. -/
inductive FType where
  | file
  | dir
  | symlink
deriving DecidableEq

/-- is_link from cli.py on the POSIX platform (IS_WINDOWS false):
path.is_symlink(). -/
def is_link : Option FType → Bool
  | some FType.symlink => true
  | _ => false

/-- Path.unlink() as called by remove_link: fails on a missing path
(FileNotFoundError) and on a directory (IsADirectoryError, an OSError alias
IOError), and otherwise removes the entry — whether it is a symlink or a
regular file. The ok result is the entry left at the path. -/
def posixUnlink : Option FType → Except String (Option FType)
  | none => Except.error "FileNotFoundError"
  | some FType.dir => Except.error "IsADirectoryError"
  | some FType.file => Except.ok none
  | some FType.symlink => Except.ok none

/-- remove_link from cli.py on the POSIX platform: IS_WINDOWS is false, so
the os.rmdir branch is dead and remove_link is exactly path.unlink(). -/
def remove_link (e : Option FType) : Except String (Option FType) :=
  posixUnlink e

/-- C6 counterexample: an existing regular file is not a link, yet
remove_link succeeds and silently deletes it (unlink removes regular files),
so remove_link does not fail with IOError on every existing non-link path. -/
theorem remove_link_file_cex :
    is_link (some FType.file) = false ∧
      remove_link (some FType.file) = Except.ok none :=
  ⟨rfl, rfl⟩

/-- C6 amended: the only existing non-link entries remove_link refuses to
delete are directories — there it fails with IOError (IsADirectoryError) and
removes nothing — while an existing non-link regular file is silently
unlinked. -/
theorem remove_link_amended :
    (is_link (some FType.dir) = false ∧
      remove_link (some FType.dir) = Except.error "IsADirectoryError") ∧
    remove_link (some FType.file) = Except.ok none :=
  ⟨⟨rfl, rfl⟩, rfl⟩

/-- The built-in developer preset document from builtins.py. -/
def developerPreset : PyDict :=
  [("permissions", Doc.obj [("allow", Doc.arr [
    Doc.str "Bash(git *)", Doc.str "Bash(npm *)", Doc.str "Bash(npx *)",
    Doc.str "Bash(yarn *)", Doc.str "Bash(pnpm *)", Doc.str "Bash(uv *)",
    Doc.str "Bash(pip *)", Doc.str "Bash(python *)", Doc.str "Bash(node *)",
    Doc.str "Bash(make *)", Doc.str "Bash(cargo *)", Doc.str "Bash(go *)"])])]

/-- The built-in preset table PRESETS from builtins.py. -/
def BUILTIN_PRESETS : List (String × PyDict) := [
  ("developer", developerPreset),
  ("git", [("permissions", Doc.obj [("allow", Doc.arr [
    Doc.str "Bash(git *)", Doc.str "Bash(gh *)"])])]),
  ("node", [("permissions", Doc.obj [("allow", Doc.arr [
    Doc.str "Bash(npm *)", Doc.str "Bash(npx *)", Doc.str "Bash(yarn *)",
    Doc.str "Bash(pnpm *)", Doc.str "Bash(node *)"])])]),
  ("python", [("permissions", Doc.obj [("allow", Doc.arr [
    Doc.str "Bash(uv *)", Doc.str "Bash(pip *)", Doc.str "Bash(python *)",
    Doc.str "Bash(pytest *)", Doc.str "Bash(ruff *)"])])]),
  ("docker", [("permissions", Doc.obj [("allow", Doc.arr [
    Doc.str "Bash(docker *)", Doc.str "Bash(docker-compose *)"])])]),
  ("k8s", [("permissions", Doc.obj [("allow", Doc.arr [
    Doc.str "Bash(kubectl *)", Doc.str "Bash(helm *)"])])])]

/-- PRESETS.get(name): lookup in the built-in table. -/
def presetLookup : List (String × PyDict) → String → Option PyDict
  | [], _ => none
  | (k, v) :: rest, n => if k = n then some v else presetLookup rest n

/-- The user preset store: the saved preset document for each name (the file
name.json under the presets directory, parsed), if one exists. -/
abbrev PresetStore := String → Option PyDict

/-- load_user_preset from cli.py: read the stored document, if present. -/
def load_user_preset (store : PresetStore) (name : String) : Option PyDict :=
  store name

/-- save_user_preset from cli.py: write the document unconditionally,
overwriting any existing preset of that name. -/
def save_user_preset (store : PresetStore) (name : String) (settings : PyDict) :
    PresetStore :=
  fun n => if n = name then some settings else store n

/-- get_preset from cli.py: the loaded user preset is used only when it is
truthy (`if user_preset:` — a non-empty dict); otherwise the built-in table
is consulted. -/
def get_preset (store : PresetStore) (name : String) : Option PyDict :=
  match load_user_preset store name with
  | some d => if d ≠ [] then some d else presetLookup BUILTIN_PRESETS name
  | none => presetLookup BUILTIN_PRESETS name

/-- C7 counterexample: for doc = the empty dict, saving it as user preset
"developer" and resolving "developer" returns the built-in developer
preset, not the saved document — `if user_preset:` treats the empty dict
saved in the store as absent. -/
theorem get_preset_empty_cex :
    get_preset (save_user_preset (fun _ => none) "developer" []) "developer"
      ≠ some [] := by
  decide

/-- C7 amended: get_preset checks the user store first and falls back to the
fixed built-in table when no user preset of that name exists, with no
merging; a saved user preset shadows the like-named built-in for every
NON-EMPTY document (an empty saved document is treated as absent). -/
theorem get_preset_resolution (store : PresetStore) (doc : PyDict)
    (hnone : store "developer" = none) (hne : doc ≠ []) :
    get_preset store "developer" = some developerPreset ∧
      get_preset (save_user_preset store "developer" doc) "developer"
        = some doc := by
  constructor
  · rw [get_preset, load_user_preset, hnone]
    rfl
  · rw [get_preset, load_user_preset, save_user_preset]
    simp [hne]

/-- Witness for the amended C7 at a concrete store and document. -/
theorem get_preset_resolution_witness :
    get_preset (fun _ => none) "developer" = some developerPreset ∧
      get_preset (save_user_preset (fun _ => none) "developer"
        [("x", Doc.null)]) "developer" = some [("x", Doc.null)] :=
  get_preset_resolution (fun _ => none) [("x", Doc.null)] rfl (by decide)

/-- The whitespace removed by Python str.strip(): space, tab, newline,
carriage return, vertical tab, form feed. -/
def isPySpace (c : Char) : Bool :=
  c == ' ' || c == '\t' || c == '\n' || c == '\r' || c == '\x0b' || c == '\x0c'

/-- Python str.strip(): drop whitespace from both ends. -/
def pyStrip (s : List Char) : List Char :=
  ((s.dropWhile isPySpace).reverse.dropWhile isPySpace).reverse

/-- Python str.split("/"): cut at every slash, keeping empty pieces; the
empty string yields one empty piece. -/
def splitSlash : List Char → List (List Char)
  | [] => [[]]
  | c :: cs =>
    match splitSlash cs with
    | [] => [[]]
    | h :: t => if c = '/' then [] :: h :: t else (c :: h) :: t

/-- parse_repo_spec from cli.py: strip the spec, split on "/", demand exactly
two parts, and return (owner, repo); otherwise raise ValueError. -/
def parse_repo_spec (s : List Char) : Except String (List Char × List Char) :=
  match splitSlash (pyStrip s) with
  | [a, b] => Except.ok (a, b)
  | _ => Except.error "Invalid repo format"

/-- C8: For every input string, parse_repo_spec raises a ValueError if and
only if the stripped string does not split on "/" into exactly two segments;
when it does not raise, it returns the pair (owner, repo) of the two
segments. -/
theorem parse_repo_spec_spec (s : List Char) :
    ((∃ e, parse_repo_spec s = Except.error e) ↔
      (splitSlash (pyStrip s)).length ≠ 2) ∧
    ∀ a b, splitSlash (pyStrip s) = [a, b] →
      parse_repo_spec s = Except.ok (a, b) := by
  unfold parse_repo_spec
  rcases hsp : splitSlash (pyStrip s) with _ | ⟨a, _ | ⟨b, _ | ⟨c, t⟩⟩⟩ <;>
    simp [hsp]

/-- Witness for C8: the well-formed spec "octo/repo" parses into its two
segments. -/
theorem parse_repo_spec_spec_witness :
    parse_repo_spec ("octo/repo".data) = Except.ok ("octo".data, "repo".data) :=
  (parse_repo_spec_spec ("octo/repo".data)).2 "octo".data "repo".data (by decide)

/-- A repository root's top-level files, each parsed as a JSON dict when
present (find_repo_permissions json.loads every file it finds). -/
abbrev RepoFiles := String → Option PyDict

/-- find_repo_permissions from cli.py: probe the three candidate filenames in
priority order and return the first that exists. -/
def find_repo_permissions (repo : RepoFiles) : Option PyDict :=
  match repo "settings.json" with
  | some d => some d
  | none =>
    match repo "permissions.json" with
    | some d => some d
    | none => repo "claude-settings.json"

/-- load_settings from cli.py: the stored document, or the empty dict when
the settings file does not exist. -/
def load_settings (settings : Option PyDict) : PyDict :=
  match settings with
  | some d => d
  | none => []

/-- merge_permissions from cli.py, acting on the settings store at the target
path (none when the file is absent): when the repo has no permissions file,
or its document is falsy (empty), return no keys and leave the store as it
was; otherwise deep-merge the repo permissions over the loaded settings,
save, and return the repo document's keys. -/
def merge_permissions (repo : RepoFiles) (settings : Option PyDict) :
    List String × Option PyDict :=
  match find_repo_permissions repo with
  | none => ([], settings)
  | some perms =>
    if perms = [] then ([], settings)
    else (PyDict.keys perms, some (deep_merge (load_settings settings) perms))

/-- C10: When none of the fixed candidate permission filenames
(settings.json, permissions.json, claude-settings.json) exists at the
repository root, merge_permissions returns the empty list and leaves the
settings store at the target path completely unchanged: not created if
absent, not rewritten if present. -/
theorem merge_permissions_no_file (repo : RepoFiles) (settings : Option PyDict)
    (h1 : repo "settings.json" = none)
    (h2 : repo "permissions.json" = none)
    (h3 : repo "claude-settings.json" = none) :
    merge_permissions repo settings = ([], settings) := by
  unfold merge_permissions find_repo_permissions
  rw [h1, h2, h3]

/-- Witness for C10: an empty repository root together with an existing
settings file, which stays exactly as it was. -/
theorem merge_permissions_no_file_witness :
    merge_permissions (fun _ => none) (some [("permissions", Doc.null)]) =
      ([], some [("permissions", Doc.null)]) :=
  merge_permissions_no_file (fun _ => none) (some [("permissions", Doc.null)])
    rfl rfl rfl

end Skillset
